import Mathlib

/-!
Verification of the chunking / translation dispatch / validation / reassembly
core of the stellaris-ai-translate repository.

Text is modelled as `List Char` (named `Str` below); every definition is a
direct shallow embedding of the corresponding Rust function, with Rust's
`str::lines`, `Vec::join("\n")`, `str::trim` (full Unicode `White_Space`) and
`sort_by_key` modelled explicitly.  The `f32` arithmetic of
`token_estimator.rs` only ever produces non-negative multiples of 1/4, so it
is embedded exactly, in quarter units, by `roundF32N`: IEEE-754 binary32
round-to-nearest, ties to even, at a 24-bit significand.  Rust's full-Unicode
`str::to_lowercase` is not reproduced; definitions that depend on it take the
lowercasing function as an explicit parameter, instantiated with the ASCII
case mapping (on which the two agree) at concrete ASCII inputs only.
-/

/-- Character lists standing for Rust `String` / `&str` values. -/
abbrev Str := List Char

instance {ε α : Type} [DecidableEq ε] [DecidableEq α] : DecidableEq (Except ε α) :=
  fun x y =>
    match x, y with
    | .ok a, .ok b => decidable_of_iff (a = b) (by simp)
    | .error e, .error f => decidable_of_iff (e = f) (by simp)
    | .ok _, .error _ => isFalse (by simp)
    | .error _, .ok _ => isFalse (by simp)

/-- Convert a Lean string literal to the `List Char` model. -/
def str (s : String) : Str := s.data

/- ===== src/utils/token_estimator.rs ===== -/

/-- Source `is_cjk_character`: membership in the eight CJK ranges of the source. -/
def is_cjk_character (c : Char) : Bool :=
  (0x4E00 ≤ c.toNat && c.toNat ≤ 0x9FFF) ||
  (0x3400 ≤ c.toNat && c.toNat ≤ 0x4DBF) ||
  (0x20000 ≤ c.toNat && c.toNat ≤ 0x2A6DF) ||
  (0x2A700 ≤ c.toNat && c.toNat ≤ 0x2B73F) ||
  (0x2B740 ≤ c.toNat && c.toNat ≤ 0x2B81F) ||
  (0x2B820 ≤ c.toNat && c.toNat ≤ 0x2CEAF) ||
  (0xF900 ≤ c.toNat && c.toNat ≤ 0xFAFF) ||
  (0x2F800 ≤ c.toNat && c.toNat ≤ 0x2FA1F)

/-- Fuel-bounded base-2 logarithm, structurally recursive in the fuel so that
the kernel can evaluate it; `log2F fuel n = ⌊log₂ n⌋` whenever `n ≤ fuel`
(and `0` for `n < 2`), see `log2F_eq`. -/
def log2F : Nat → Nat → Nat
  | 0, _ => 0
  | fuel + 1, n => if n < 2 then 0 else log2F fuel (n / 2) + 1

/-- Base-2 floor logarithm (`natLog2 n = Nat.log 2 n`, see `natLog2_eq`). -/
def natLog2 (n : Nat) : Nat := log2F n n

/-- IEEE-754 binary32 rounding (round to nearest, ties to even) on
non-negative quarter-integers, in quarter units: the argument `q` stands for
the real value `q/4` and the result is the rounded value in the same units.
A value `q/4` with `q < 2 ^ 24` has at most 24 significant bits, is exactly
representable, and is returned unchanged.  Otherwise its binary exponent is
`e = ⌊log₂ (q/4)⌋ = natLog2 q - 2 ≥ 22`, its ulp is `2 ^ (e - 23)`, which is
`g = 2 ^ (natLog2 q - 23) ≥ 2` quarter units, and the value is rounded to the
nearest multiple of `g`, a tie going to the even multiple; when rounding up
crosses into the next binade the result `2 ^ 24 * g` is exactly representable
there, so the formula is still the correct rounding.  Every intermediate
value of `token_estimator.rs` is a non-negative quarter-integer far below the
`f32` overflow threshold, so this captures its `f32` arithmetic exactly. -/
def roundF32N (q : Nat) : Nat :=
  if q < 2 ^ 24 then q
  else if 2 ^ (natLog2 q - 23) / 2 < q % 2 ^ (natLog2 q - 23) then
    (q / 2 ^ (natLog2 q - 23) + 1) * 2 ^ (natLog2 q - 23)
  else if q % 2 ^ (natLog2 q - 23) < 2 ^ (natLog2 q - 23) / 2 then
    q / 2 ^ (natLog2 q - 23) * 2 ^ (natLog2 q - 23)
  else if q / 2 ^ (natLog2 q - 23) % 2 = 0 then
    q / 2 ^ (natLog2 q - 23) * 2 ^ (natLog2 q - 23)
  else (q / 2 ^ (natLog2 q - 23) + 1) * 2 ^ (natLog2 q - 23)

/-- Source `estimate_english_tokens`: `(char_count as f32 / 4.0).ceil() as usize`,
in quarter units.  The cast of `char_count = n` to `f32` is `roundF32N (4 * n)`
(four times its value); dividing the value by `4.0` divides the quarter units
by 4 — exactly, because an `f32`-rounded integer is a multiple of 4 quarter
units (identity below `2 ^ 24`, a multiple of the grid `g` above it, and the
grid of an integer value is a multiple of 4 quarter units) — after which the
quotient is rounded again by the `f32` division; `ceil` of a value `q/4` is
`(q + 3) / 4`. -/
def estimate_english_tokens (text : Str) : Nat :=
  (roundF32N (roundF32N (4 * text.length) / 4) + 3) / 4

/-- Number of CJK characters of a string (`chars().filter(is_cjk_character).count()`). -/
def cjkCount (text : Str) : Nat :=
  (text.filter fun c => is_cjk_character c).length

/-- Number of non-CJK characters of a string. -/
def otherCount (text : Str) : Nat :=
  text.length - cjkCount text

/-- Source `estimate_chinese_tokens`:
`((chinese as f32 * 1.5) + (other as f32 * 0.25)).ceil() as usize`, in quarter
units.  `chinese as f32` is `roundF32N (4 * cjk)`, a multiple of 4 quarter
units (see `estimate_english_tokens`); multiplying its value by `1.5` yields
`3 * roundF32N (4 * cjk) / 2` quarter units (exact, as the operand is a
multiple of 4), rounded by the `f32` multiplication; `other as f32 * 0.25` is
`roundF32N (4 * other) / 4` quarter units (exact likewise), rounded; the
`f32` addition adds the quarter units exactly and rounds; `ceil` of `q/4` is
`(q + 3) / 4`. -/
def estimate_chinese_tokens (text : Str) : Nat :=
  (roundF32N (roundF32N (3 * roundF32N (4 * cjkCount text) / 2)
      + roundF32N (roundF32N (4 * otherCount text) / 4)) + 3) / 4

/-- Source `estimate_mixed_tokens`: CJK-blended estimate if any CJK character occurs,
plain `ceil(len/4)` otherwise. -/
def estimate_mixed_tokens (text : Str) : Nat :=
  if text.any is_cjk_character then estimate_chinese_tokens text
  else estimate_english_tokens text

/- ===== Rust string primitives used by the pipeline ===== -/

/-- Rust `str::split_inclusive('\n')`: pieces of the string, each retaining its
terminating newline; the final piece may lack one; the empty string has no pieces. -/
def splitInclusiveNl : Str → List Str
  | [] => []
  | c :: rest =>
    if c = '\n' then [c] :: splitInclusiveNl rest
    else
      match splitInclusiveNl rest with
      | [] => [[c]]
      | p :: ps => (c :: p) :: ps

/-- The per-piece map of `str::lines`: strip one trailing `'\n'`, and after that
one trailing `'\r'` (a `'\r'` not followed by `'\n'` is kept). -/
def stripNlCr (l : Str) : Str :=
  if l.getLast? = some '\n' then
    let l2 := l.dropLast
    if l2.getLast? = some '\r' then l2.dropLast else l2
  else l

/-- Rust `str::lines`. -/
def rustLines (s : Str) : List Str :=
  (splitInclusiveNl s).map stripNlCr

/-- Rust `Vec::join("\n")` / `[&str]::join("\n")`. -/
def joinNl : List Str → Str
  | [] => []
  | [l] => l
  | l :: ls => l ++ '\n' :: joinNl ls

/-- Whitespace predicate of Rust `str::trim` / `char::is_whitespace`: the
Unicode `White_Space` property, i.e. code points 0x09–0x0D, 0x20, 0x85, 0xA0,
0x1680, 0x2000–0x200A, 0x2028, 0x2029, 0x202F, 0x205F and 0x3000. -/
def isWS (c : Char) : Bool :=
  (0x09 ≤ c.toNat && c.toNat ≤ 0x0D) || c.toNat == 0x20 || c.toNat == 0x85 ||
  c.toNat == 0xA0 || c.toNat == 0x1680 ||
  (0x2000 ≤ c.toNat && c.toNat ≤ 0x200A) ||
  c.toNat == 0x2028 || c.toNat == 0x2029 || c.toNat == 0x202F ||
  c.toNat == 0x205F || c.toNat == 0x3000

/-- Rust `str::trim_start`. -/
def rustTrimLeft (s : Str) : Str := s.dropWhile isWS

/-- Rust `str::trim_end`. -/
def rustTrimRight (s : Str) : Str := (s.reverse.dropWhile isWS).reverse

/-- Rust `str::trim`. -/
def rustTrim (s : Str) : Str := rustTrimRight (rustTrimLeft s)

/-- ASCII case mapping (Lean `Char.toLower`).  Rust `str::to_lowercase`
performs full Unicode case mapping, which this function does NOT reproduce;
the two agree on ASCII strings.  Definitions that depend on lowercasing
therefore take the lowercasing function as an explicit parameter, and the
concrete statements below instantiate it with `asciiToLower` at ASCII inputs
only, where the instantiation is exact. -/
def asciiToLower (s : Str) : Str := s.map Char.toLower

/- ===== src/translate/splitter.rs ===== -/

/-- Struct `FileChunk` of `src/translate/splitter.rs`. -/
structure FileChunk where
  content : Str
  start_line : Nat
  end_line : Nat
  target_filename : Str
deriving DecidableEq

/-- The line loop of `split_yaml_content`: `buf`, `count`, `startLine` mirror
`current_chunk_lines`, `current_token_count`, `start_line`; `lineNo` is the
1-based number of the next line to process; the final buffer is flushed with
`end_line = lineNo - 1` (the total line count). -/
def splitGo (tf : Str) (maxTok : Nat) :
    List Str → Nat → List Str → Nat → Nat → List FileChunk
  | [], lineNo, buf, _count, startLine =>
    if buf.isEmpty then []
    else [⟨joinNl buf, startLine, lineNo - 1, tf⟩]
  | l :: rest, lineNo, buf, count, startLine =>
    let t := estimate_mixed_tokens l
    if buf ≠ [] ∧ count + t > maxTok then
      ⟨joinNl buf, startLine, lineNo - 1, tf⟩ ::
        splitGo tf maxTok rest (lineNo + 1) [l] t lineNo
    else
      splitGo tf maxTok rest (lineNo + 1) (buf ++ [l]) (count + t) startLine

/-- Source `split_yaml_content` of `src/translate/splitter.rs` (the function always
returns `Ok`, so the `Result` wrapper is omitted). -/
def split_yaml_content (target_filename : Str) (content : Str)
    (max_chunk_tokens : Nat) : List FileChunk :=
  let lines := rustLines content
  if lines.isEmpty then []
  else splitGo target_filename max_chunk_tokens lines 1 [] 0 1

/-- Sum of the per-line token estimates accumulated by the splitter. -/
def sumTokens (ls : List Str) : Nat :=
  (ls.map estimate_mixed_tokens).sum

/- ===== src/postprocess/merger.rs ===== -/

/-- Struct `TranslationSlice` of `src/postprocess/merger.rs`. -/
structure TranslationSlice where
  content : Str
  start_line : Nat
  end_line : Nat
deriving DecidableEq

/-- The two `PostprocessError` variants `merge_slices` can produce:
`InconsistentSlices` for the empty input, `MergeFailed` (carrying the two
numbers interpolated into its message) for a contiguity violation. -/
inductive PostprocessError where
  | inconsistentSlices : PostprocessError
  | mergeFailed (got : Nat) (prevEnd : Nat) : PostprocessError
deriving DecidableEq

/-- Key order used by `sorted_slices.sort_by_key(|s| s.start_line)`. -/
def sliceLe (a b : TranslationSlice) : Prop := a.start_line ≤ b.start_line

instance : DecidableRel sliceLe := fun a b => Nat.decLe a.start_line b.start_line

/-- Rust `sort_by_key` is a stable sort; insertion sort on `sliceLe` is the
stable sort of the model. -/
def sortSlices (l : List TranslationSlice) : List TranslationSlice :=
  List.insertionSort sliceLe l

/-- The contiguity loop of `merge_slices`: first adjacent pair of the sorted
slices with `start_line ≠ prev.end_line + 1`, as the error it raises. -/
def contiguityCheck : List TranslationSlice → Option PostprocessError
  | a :: b :: rest =>
    if b.start_line ≠ a.end_line + 1 then
      some (.mergeFailed b.start_line a.end_line)
    else contiguityCheck (b :: rest)
  | _ => none

/-- Source `merge_slices` of `src/postprocess/merger.rs`. -/
def merge_slices (slices : List TranslationSlice) : Except PostprocessError Str :=
  if slices.isEmpty then .error .inconsistentSlices
  else
    let sorted := sortSlices slices
    match contiguityCheck sorted with
    | some e => .error e
    | none => .ok (joinNl ((sorted.map fun s => rustLines s.content).flatten))

/-- View a `FileChunk` as the `TranslationSlice` carrying the same content and
line range (the identity translation of the round-trip property). -/
def toSlice (c : FileChunk) : TranslationSlice :=
  ⟨c.content, c.start_line, c.end_line⟩

/- ===== src/translate/validator.rs ===== -/

/-- The single issue a `validate` call can report: the `TranslationError::ValidationError`
message names the mismatching family and interpolates both marker sequences;
the three constructors carry exactly those two sequences. -/
inductive ValidationIssue where
  | iconMismatch (orig trans : List Str) : ValidationIssue
  | variableMismatch (orig trans : List Str) : ValidationIssue
  | colorMismatch (orig trans : List Str) : ValidationIssue
deriving DecidableEq

/-- One-pass scanner realizing `find_iter` of the family pattern `D[^D]+D`
(leftmost-first, non-overlapping).  The state is `none` outside a candidate
match and `some acc` after an opening delimiter, `acc` holding the non-delimiter
run seen so far in reverse.  A delimiter with a non-empty run closes a match
and scanning resumes after it; a delimiter right after a delimiter restarts
the candidate at the second one (the regex needs at least one `[^D]` char);
an unclosed candidate at the end of input is discarded. -/
def scanMarkers (d : Char) : Str → Option Str → List Str
  | [], _ => []
  | c :: rest, none =>
    if c = d then scanMarkers d rest (some [])
    else scanMarkers d rest none
  | c :: rest, some acc =>
    if c = d then
      if acc.isEmpty then scanMarkers d rest (some [])
      else (d :: acc.reverse ++ [d]) :: scanMarkers d rest none
    else scanMarkers d rest (some (c :: acc))

/-- Regex `find_iter` of the pattern `D[^D]+D` over a string: matched spans in order. -/
def extractMarkers (d : Char) (s : Str) : List Str := scanMarkers d s none

/-- Icon marker sequence (`£[^£]+£`) of a string. -/
def iconMarkers (s : Str) : List Str := extractMarkers '£' s

/-- Variable marker sequence (`\$[^$]+\$`) of a string. -/
def variableMarkers (s : Str) : List Str := extractMarkers '$' s

/-- Color marker sequence (`§[^§]+§`) of a string. -/
def colorMarkers (s : Str) : List Str := extractMarkers '§' s

/-- Source `FormatValidator::validate`: compares the three marker families in the
order icon, variable, color, returning at the first mismatch. -/
def validate (original translated : Str) : Except ValidationIssue Unit :=
  if iconMarkers original ≠ iconMarkers translated then
    .error (.iconMismatch (iconMarkers original) (iconMarkers translated))
  else if variableMarkers original ≠ variableMarkers translated then
    .error (.variableMismatch (variableMarkers original) (variableMarkers translated))
  else if colorMarkers original ≠ colorMarkers translated then
    .error (.colorMismatch (colorMarkers original) (colorMarkers translated))
  else .ok ()

/- ===== src/translate/translator.rs ===== -/

/-- Source `Translator::translate_chunk`, with the per-chunk fallible work (prompt
template load, backend request, response extraction) abstracted as one
`backend` call returning either the translated text or an error message.
On success the slice carries the chunk's original line range; the advisory
format validation only logs and does not affect the result. -/
def translate_chunk (backend : FileChunk → Except Str Str) (c : FileChunk) :
    Except Str TranslationSlice :=
  match backend c with
  | .error e => .error e
  | .ok t => .ok ⟨t, c.start_line, c.end_line⟩

/-- The `join_all` phase of `translate_batch`: every chunk's translation is
performed (no short-circuiting); the second component counts the per-chunk
backend invocations. -/
def translateAll (backend : FileChunk → Except Str Str) :
    List FileChunk → List (Except Str TranslationSlice) × Nat
  | [] => ([], 0)
  | c :: cs =>
    let p := translateAll backend cs
    (translate_chunk backend c :: p.1, p.2 + 1)

/-- The result loop of `translate_batch`: successes pushed in order; each
failure appends `format!("{} ", e)` to the error string and sets `has_error`. -/
def processResults :
    List (Except Str TranslationSlice) → List TranslationSlice × Str × Bool
  | [] => ([], [], false)
  | .ok s :: rs =>
    let p := processResults rs
    (s :: p.1, p.2.1, p.2.2)
  | .error e :: rs =>
    let p := processResults rs
    (p.1, e ++ ' ' :: p.2.1, true)

/-- Source `Translator::translate_batch`: translate every chunk, then either return
the slices in input order or the `AsyncError` carrying the trimmed
concatenation of all failure messages. -/
def translate_batch (backend : FileChunk → Except Str Str)
    (chunks : List FileChunk) : Except Str (List TranslationSlice) :=
  let translated := translateAll backend chunks
  let p := processResults translated.1
  if p.2.2 then .error (rustTrim p.2.1) else .ok p.1

/-- The failure messages of a chunk list under a backend, in input order. -/
def failMsgs (backend : FileChunk → Except Str Str)
    (chunks : List FileChunk) : List Str :=
  chunks.filterMap fun c =>
    match backend c with
    | .error e => some e
    | .ok _ => none

/-- The translated text of a successful backend result (placeholder on error). -/
def okText (r : Except Str Str) : Str :=
  match r with
  | .ok t => t
  | .error _ => []

/-- Space-intercalation of a message list. -/
def joinSp : List Str → Str
  | [] => []
  | [m] => m
  | m :: ms => m ++ ' ' :: joinSp ms

/-- The raw aggregated error string before trimming: each message followed by
one space, concatenated in order. -/
def joinSpTrail (ms : List Str) : Str :=
  (ms.map fun m => m ++ [' ']).flatten

/- ===== src/translate/glossary.rs ===== -/

/-- Struct `GlossaryItem`: one optional term text per supported language. -/
structure GlossaryItem where
  english : Option Str
  simp_chinese : Option Str
  spanish : Option Str
  french : Option Str
  braz_por : Option Str
  russian : Option Str
  german : Option Str
  japanese : Option Str
  korean : Option Str
  polish : Option Str
deriving DecidableEq

/-- Source `GlossaryItem::get`: the term for a language name, `None` for an
unrecognized language. -/
def GlossaryItem.get (item : GlossaryItem) (lang : Str) : Option Str :=
  if lang = str "english" then item.english
  else if lang = str "simp_chinese" then item.simp_chinese
  else if lang = str "spanish" then item.spanish
  else if lang = str "french" then item.french
  else if lang = str "braz_por" then item.braz_por
  else if lang = str "russian" then item.russian
  else if lang = str "german" then item.german
  else if lang = str "japanese" then item.japanese
  else if lang = str "korean" then item.korean
  else if lang = str "polish" then item.polish
  else none

/-- One entry value of the glossary JSON object: either an object whose
string-valued fields are listed (serde ignores non-numeric keys via the
lookup below), or a value `serde_json::from_value` rejects for shape reasons
(non-object, or a field of the wrong type). -/
inductive EntryJson where
  | obj (fields : List (Str × Str)) : EntryJson
  | malformed : EntryJson
deriving DecidableEq

/-- Field lookup in an entry object (JSON object keys are unique). -/
def lookupField (fields : List (Str × Str)) (k : Str) : Option Str :=
  (fields.find? fun p => p.1 == k).map Prod.snd

/-- The ten numeric keys `"1".."10"` recognized by `RawItem`. -/
def langKeys : List Str :=
  [str "1", str "2", str "3", str "4", str "5",
   str "6", str "7", str "8", str "9", str "10"]

/-- Source `GlossaryItem::deserialize`: decode the numeric-keyed fields, then reject
the entry if every one of the ten fields is absent. -/
def glossary_item_deserialize : EntryJson → Option GlossaryItem
  | .malformed => none
  | .obj fields =>
    let item : GlossaryItem :=
      ⟨lookupField fields (str "1"), lookupField fields (str "2"),
       lookupField fields (str "3"), lookupField fields (str "4"),
       lookupField fields (str "5"), lookupField fields (str "6"),
       lookupField fields (str "7"), lookupField fields (str "8"),
       lookupField fields (str "9"), lookupField fields (str "10")⟩
    if item.english.isSome || item.simp_chinese.isSome || item.spanish.isSome ||
       item.french.isSome || item.braz_por.isSome || item.russian.isSome ||
       item.german.isSome || item.japanese.isSome || item.korean.isSome ||
       item.polish.isSome
    then some item else none

/-- The entry loop of `Glossary::from_json_file` on an already-parsed JSON
object: entries whose value deserializes are inserted, the rest are skipped
with a warning (the map is modelled as an association list in key order). -/
def from_json_object (obj : List (Str × EntryJson)) : List (Str × GlossaryItem) :=
  obj.filterMap fun kv =>
    (glossary_item_deserialize kv.2).map fun it => (kv.1, it)

/-- Source `Glossary::find_terms_in_text`: lower-case the input text with Rust
`str::to_lowercase` — passed in as the parameter `rustToLower`, since its full
Unicode case mapping is not reproduced in this development — then collect the
source-language term of every entry whose term occurs verbatim as a substring
of the lower-cased text (the glossary term itself is not lower-cased). -/
def find_terms_in_text (rustToLower : Str → Str)
    (entries : List (Str × GlossaryItem)) (text : Str)
    (source_lang : Str) : List Str :=
  let t := rustToLower text
  entries.filterMap fun kv =>
    match GlossaryItem.get kv.2 source_lang with
    | some term => if term <:+: t then some term else none
    | none => none

/- ===== auxiliary definitions used by the specifications ===== -/

/-- The chunk list determined by a partition of the line list into blocks,
starting at line `s`: each block `b` becomes a chunk spanning exactly
`b.length` lines whose content is the newline-join of `b`. -/
def chunksOf (tf : Str) : Nat → List (List Str) → List FileChunk
  | _, [] => []
  | s, b :: bs => ⟨joinNl b, s, s + b.length - 1, tf⟩ :: chunksOf tf (s + b.length) bs

/-- A non-empty message that neither starts nor ends with whitespace, so the
`trim` of the aggregated error string cannot eat into it. -/
def wsClean (m : Str) : Bool :=
  !m.isEmpty && !isWS (m.headD ' ') && !isWS (m.getLastD ' ')

/- ===== lemmas: Rust line splitting and joining ===== -/

theorem mem_splitInclusiveNl (s : Str) :
    ∀ p ∈ splitInclusiveNl s, p ≠ [] ∧ ∀ c ∈ p.dropLast, c ≠ '\n' := by
  induction s with
  | nil => intro p hp; simp [splitInclusiveNl] at hp
  | cons c rest ih =>
    intro p hp
    by_cases hc : c = '\n'
    · simp only [splitInclusiveNl, if_pos hc, List.mem_cons] at hp
      rcases hp with hp | hp
      · subst hp; exact ⟨by simp, by simp⟩
      · exact ih p hp
    · simp only [splitInclusiveNl, if_neg hc] at hp
      rcases hsp : splitInclusiveNl rest with _ | ⟨q, qs⟩
      · rw [hsp] at hp
        simp at hp
        subst hp
        exact ⟨by simp, by simp⟩
      · rw [hsp] at hp
        rcases List.mem_cons.mp hp with hp | hp
        · subst hp
          have hq := ih q (by rw [hsp]; exact List.mem_cons_self q qs)
          constructor
          · simp
          · intro x hx
            rcases hq with ⟨hqne, hqd⟩
            rw [List.dropLast_cons_of_ne_nil hqne] at hx
            rcases List.mem_cons.mp hx with hx | hx
            · subst hx; exact hc
            · exact hqd x hx
        · exact ih p (by rw [hsp]; exact List.mem_cons_of_mem q hp)

theorem stripNlCr_no_nl_mem {p : Str} (hne : p ≠ [])
    (hd : ∀ c ∈ p.dropLast, c ≠ '\n') : ∀ c ∈ stripNlCr p, c ≠ '\n' := by
  intro c hc
  unfold stripNlCr at hc
  by_cases hlast : p.getLast? = some '\n'
  · rw [if_pos hlast] at hc
    by_cases hcr : p.dropLast.getLast? = some '\r'
    · simp only [if_pos hcr] at hc
      exact hd c ((List.dropLast_sublist p.dropLast).subset hc)
    · simp only [if_neg hcr] at hc
      exact hd c hc
  · rw [if_neg hlast] at hc
    rw [← List.dropLast_concat_getLast hne] at hc
    rcases List.mem_append.mp hc with hc | hc
    · exact hd c hc
    · simp at hc
      subst hc
      intro habs
      exact hlast (by rw [List.getLast?_eq_getLast p hne, habs])

theorem rustLines_no_nl (s : Str) : ∀ l ∈ rustLines s, ∀ c ∈ l, c ≠ '\n' := by
  intro l hl
  unfold rustLines at hl
  rcases List.mem_map.mp hl with ⟨p, hp, hpl⟩
  rcases mem_splitInclusiveNl s p hp with ⟨hne, hd⟩
  subst hpl
  exact stripNlCr_no_nl_mem hne hd

theorem splitInclusiveNl_no_nl {l : Str} (hne : l ≠ [])
    (h : ∀ c ∈ l, c ≠ '\n') : splitInclusiveNl l = [l] := by
  induction l with
  | nil => exact absurd rfl hne
  | cons c rest ih =>
    have hc : c ≠ '\n' := h c (List.mem_cons_self c rest)
    simp only [splitInclusiveNl, if_neg hc]
    rcases hr : (rest : List Char) with _ | ⟨x, xs⟩
    · subst hr; simp [splitInclusiveNl]
    · rw [← hr]
      rw [ih (by rw [hr]; simp) (fun x hx => h x (List.mem_cons_of_mem c hx))]

theorem splitInclusiveNl_append_nl {l : Str} (h : ∀ c ∈ l, c ≠ '\n') (rest : Str) :
    splitInclusiveNl (l ++ '\n' :: rest) = (l ++ ['\n']) :: splitInclusiveNl rest := by
  induction l with
  | nil => simp [splitInclusiveNl]
  | cons c tl ih =>
    have hc : c ≠ '\n' := h c (List.mem_cons_self c tl)
    have ih2 := ih (fun x hx => h x (List.mem_cons_of_mem c hx))
    simp only [List.cons_append, splitInclusiveNl, if_neg hc, List.append_eq, ih2]

theorem stripNlCr_append_nl {l : Str} (hcr : l.getLast? ≠ some '\r') :
    stripNlCr (l ++ ['\n']) = l := by
  unfold stripNlCr
  rw [if_pos (by simp), List.dropLast_concat]
  simp only [if_neg hcr]

theorem stripNlCr_of_no_nl {l : Str} (h : ∀ c ∈ l, c ≠ '\n') : stripNlCr l = l := by
  unfold stripNlCr
  rcases hlast : l.getLast? with _ | c
  · simp
  · have hc : c ∈ l := List.mem_of_getLast?_eq_some hlast
    rw [if_neg (by intro he; injection he with h2; exact h c hc h2)]

theorem rustLines_joinNl {ls : List Str} (hne : ls ≠ [])
    (h : ∀ l ∈ ls, l ≠ [] ∧ l.getLast? ≠ some '\r' ∧ ∀ c ∈ l, c ≠ '\n') :
    rustLines (joinNl ls) = ls := by
  induction ls with
  | nil => exact absurd rfl hne
  | cons l tl ih =>
    rcases h l (List.mem_cons_self l tl) with ⟨hl_ne, hl_cr, hl_nl⟩
    rcases htl : (tl : List Str) with _ | ⟨m, ms⟩
    · subst htl
      show rustLines (joinNl [l]) = [l]
      unfold rustLines
      rw [show joinNl [l] = l from rfl, splitInclusiveNl_no_nl hl_ne hl_nl]
      simp [stripNlCr_of_no_nl hl_nl]
    · rw [← htl]
      have hjoin : joinNl (l :: tl) = l ++ '\n' :: joinNl tl := by
        rw [htl]; rfl
      unfold rustLines
      rw [hjoin, splitInclusiveNl_append_nl hl_nl]
      simp only [List.map_cons]
      rw [stripNlCr_append_nl hl_cr]
      have ihr := ih (by rw [htl]; simp)
        (fun x hx => h x (List.mem_cons_of_mem l hx))
      unfold rustLines at ihr
      rw [ihr]

/- ===== lemmas: the splitter emits a partition of the line list ===== -/

theorem splitGo_spec (tf : Str) (maxTok : Nat) (rest : List Str) :
    ∀ (buf : List Str) (lineNo startLine count : Nat),
      lineNo = startLine + buf.length →
      count = sumTokens buf →
      (2 ≤ buf.length → count ≤ maxTok) →
      ∃ blocks : List (List Str),
        splitGo tf maxTok rest lineNo buf count startLine
          = chunksOf tf startLine blocks ∧
        blocks.flatten = buf ++ rest ∧
        ∀ b ∈ blocks, b ≠ [] ∧ (2 ≤ b.length → sumTokens b ≤ maxTok) := by
  induction rest with
  | nil =>
    intro buf lineNo startLine count hline hcount hcnt
    subst hline hcount
    rcases hbuf : (buf : List Str) with _ | ⟨l, ls⟩
    · subst hbuf
      exact ⟨[], by simp [splitGo, chunksOf], by simp, by simp⟩
    · rw [← hbuf]
      refine ⟨[buf], ?_, by simp, ?_⟩
      · simp only [splitGo, chunksOf]
        rw [if_neg (by rw [hbuf]; simp)]
      · intro b hb
        simp only [List.mem_singleton] at hb
        subst hb
        exact ⟨by rw [hbuf]; simp, hcnt⟩
  | cons l rs ih =>
    intro buf lineNo startLine count hline hcount hcnt
    subst hline hcount
    by_cases hg : buf ≠ [] ∧ sumTokens buf + estimate_mixed_tokens l > maxTok
    · rcases ih [l] (startLine + buf.length + 1) (startLine + buf.length)
        (estimate_mixed_tokens l) (by simp) (by simp [sumTokens])
        (by intro h2; simp at h2) with ⟨blocks', heq, hflat, hprops⟩
      refine ⟨buf :: blocks', ?_, ?_, ?_⟩
      · simp only [splitGo]
        rw [if_pos hg]
        simp only [chunksOf]
        rw [heq]
      · simp [hflat]
      · intro b hb
        rcases List.mem_cons.mp hb with hb | hb
        · subst hb
          exact ⟨hg.1, hcnt⟩
        · exact hprops b hb
    · have hg2 : buf = [] ∨ sumTokens buf + estimate_mixed_tokens l ≤ maxTok := by
        by_cases hbe : buf = []
        · exact Or.inl hbe
        · refine Or.inr ?_
          rcases Nat.lt_or_ge maxTok (sumTokens buf + estimate_mixed_tokens l) with hlt | hge
          · exact absurd ⟨hbe, hlt⟩ hg
          · exact hge
      have hcnt2 : 2 ≤ (buf ++ [l]).length →
          sumTokens buf + estimate_mixed_tokens l ≤ maxTok := by
        intro h2
        rcases hg2 with hbe | hle
        · subst hbe
          simp at h2
        · exact hle
      rcases ih (buf ++ [l]) (startLine + buf.length + 1) startLine
        (sumTokens buf + estimate_mixed_tokens l)
        (by simp; omega) (by simp [sumTokens]) hcnt2
        with ⟨blocks', heq, hflat, hprops⟩
      refine ⟨blocks', ?_, ?_, hprops⟩
      · simp only [splitGo]
        rw [if_neg hg]
        exact heq
      · simp [hflat]

theorem chunksOf_map_content (tf : Str) (blocks : List (List Str)) :
    ∀ s : Nat, (chunksOf tf s blocks).map FileChunk.content = blocks.map joinNl := by
  induction blocks with
  | nil => intro s; simp [chunksOf]
  | cons b bs ih => intro s; simp only [chunksOf, List.map_cons, ih]

theorem mem_chunksOf (tf : Str) (blocks : List (List Str)) :
    ∀ (s : Nat) (c : FileChunk), (∀ b ∈ blocks, b ≠ []) →
      c ∈ chunksOf tf s blocks →
      ∃ b, b ∈ blocks ∧ c.content = joinNl b ∧
        c.start_line + b.length = c.end_line + 1 ∧ s ≤ c.start_line := by
  induction blocks with
  | nil => intro s c _ hc; simp [chunksOf] at hc
  | cons b bs ih =>
    intro s c hne hc
    simp only [chunksOf, List.mem_cons] at hc
    rcases hc with hc | hc
    · subst hc
      have hb1 : 1 ≤ b.length :=
        List.length_pos.mpr (hne b (List.mem_cons_self b bs))
      exact ⟨b, List.mem_cons_self b bs, rfl, by simp; omega, Nat.le_refl s⟩
    · rcases ih (s + b.length) c (fun x hx => hne x (List.mem_cons_of_mem b hx)) hc
        with ⟨b', hb', hcont, hlen, hge⟩
      exact ⟨b', List.mem_cons_of_mem b hb', hcont, hlen, by omega⟩

theorem chunksOf_chain (tf : Str) (blocks : List (List Str)) :
    ∀ s : Nat, (∀ b ∈ blocks, b ≠ []) →
      List.Chain' (fun a b => b.start_line = a.end_line + 1) (chunksOf tf s blocks) := by
  induction blocks with
  | nil => intro s _; simp [chunksOf]
  | cons b bs ih =>
    intro s hne
    rcases hbs : (bs : List (List Str)) with _ | ⟨b', bs'⟩
    · subst hbs; simp [chunksOf]
    · have hb1 : 1 ≤ b.length :=
        List.length_pos.mpr (hne b (List.mem_cons_self b bs))
      have ihc := ih (s + b.length)
        (by intro x hx; exact hne x (List.mem_cons_of_mem b hx))
      subst hbs
      simp only [chunksOf] at ihc ⊢
      rw [List.chain'_cons]
      exact ⟨by simp; omega, ihc⟩

theorem chunksOf_start_ge (tf : Str) (blocks : List (List Str)) :
    ∀ (s : Nat) (c : FileChunk), c ∈ chunksOf tf s blocks → s ≤ c.start_line := by
  induction blocks with
  | nil => intro s c hc; simp [chunksOf] at hc
  | cons b bs ih =>
    intro s c hc
    simp only [chunksOf, List.mem_cons] at hc
    rcases hc with hc | hc
    · subst hc; exact Nat.le_refl s
    · have := ih (s + b.length) c hc
      omega

theorem chunksOf_pairwise (tf : Str) (blocks : List (List Str)) :
    ∀ s : Nat, (∀ b ∈ blocks, b ≠ []) →
      List.Pairwise (fun a b => a.start_line < b.start_line) (chunksOf tf s blocks) := by
  induction blocks with
  | nil => intro s _; simp [chunksOf]
  | cons b bs ih =>
    intro s hne
    have hb1 : 1 ≤ b.length :=
      List.length_pos.mpr (hne b (List.mem_cons_self b bs))
    simp only [chunksOf]
    refine List.Pairwise.cons ?_ (ih (s + b.length)
      (fun x hx => hne x (List.mem_cons_of_mem b hx)))
    intro c hc
    have := chunksOf_start_ge tf bs (s + b.length) c hc
    simp
    omega

theorem split_yaml_spec (tf content : Str) (maxTok : Nat) :
    ∃ blocks : List (List Str),
      split_yaml_content tf content maxTok = chunksOf tf 1 blocks ∧
      blocks.flatten = rustLines content ∧
      ∀ b ∈ blocks, b ≠ [] ∧ (2 ≤ b.length → sumTokens b ≤ maxTok) := by
  unfold split_yaml_content
  by_cases h : (rustLines content).isEmpty
  · refine ⟨[], by simp [h, chunksOf], ?_, by simp⟩
    rw [List.isEmpty_iff] at h
    simp [h]
  · rw [if_neg (by simp [h])]
    rcases splitGo_spec tf maxTok (rustLines content) [] 1 1 0
      (by simp) (by simp [sumTokens]) (by intro h2; simp at h2)
      with ⟨blocks, heq, hflat, hprops⟩
    exact ⟨blocks, heq, by simpa using hflat, hprops⟩

/- ===== lemmas: merge_slices ===== -/

theorem contiguityCheck_eq_none_iff (l : List TranslationSlice) :
    contiguityCheck l = none ↔
      List.Chain' (fun a b => b.start_line = a.end_line + 1) l := by
  induction l with
  | nil => simp [contiguityCheck]
  | cons a l ih =>
    rcases hl : (l : List TranslationSlice) with _ | ⟨b, t⟩
    · simp [contiguityCheck]
    · subst hl
      simp only [contiguityCheck]
      by_cases hab : b.start_line = a.end_line + 1
      · rw [if_neg (by simp [hab])]
        rw [List.chain'_cons]
        rw [ih]
        simp [hab]
      · rw [if_pos hab]
        simp [List.chain'_cons, hab]

theorem contiguityCheck_some_shape (l : List TranslationSlice) :
    ∀ e, contiguityCheck l = some e → ∃ g p, e = .mergeFailed g p := by
  induction l with
  | nil => intro e he; simp [contiguityCheck] at he
  | cons a l ih =>
    rcases hl : (l : List TranslationSlice) with _ | ⟨b, t⟩
    · intro e he; simp [contiguityCheck] at he
    · subst hl
      intro e he
      simp only [contiguityCheck] at he
      by_cases hab : b.start_line ≠ a.end_line + 1
      · rw [if_pos hab] at he
        exact ⟨b.start_line, a.end_line, by injection he with h2; rw [← h2]⟩
      · rw [if_neg hab] at he
        exact ih e he

theorem sortSlices_eq_self {l : List TranslationSlice}
    (h : List.Pairwise sliceLe l) : sortSlices l = l :=
  List.Sorted.insertionSort_eq h

theorem merge_error_of_not_chain (slices : List TranslationSlice)
    (h : ¬ List.Chain' (fun a b => b.start_line = a.end_line + 1)
        (sortSlices slices)) :
    ∃ g p, merge_slices slices = .error (.mergeFailed g p) := by
  have hne : slices ≠ [] := by
    intro he
    subst he
    exact h (by simp [sortSlices, List.insertionSort])
  unfold merge_slices
  rw [if_neg (by simp [hne])]
  rcases hc : contiguityCheck (sortSlices slices) with _ | e
  · exact absurd ((contiguityCheck_eq_none_iff _).mp hc) h
  · rcases contiguityCheck_some_shape _ e hc with ⟨g, p, hgp⟩
    exact ⟨g, p, by simp [hc, hgp]⟩

theorem merge_ok_of_chain (slices : List TranslationSlice) (hne : slices ≠ [])
    (h : List.Chain' (fun a b => b.start_line = a.end_line + 1)
        (sortSlices slices)) :
    merge_slices slices
      = .ok (joinNl ((sortSlices slices).map fun s => rustLines s.content).flatten) := by
  unfold merge_slices
  rw [if_neg (by simp [hne])]
  simp only [(contiguityCheck_eq_none_iff _).mpr h]

/- ===== C1 ===== -/

/-- C1 (amended): for every filename, token budget ≥ 1, and text that has at
least one line, every line non-empty and no line ending in a carriage return,
merging the chunks produced by `split_yaml_content` (each chunk taken as a
slice with its line range) succeeds and reproduces exactly the text's line
sequence.  (The unamended claim fails on texts with a trailing empty line or
a line ending in `'\r'`; see the counterexample.) -/
theorem claim_C1_round_trip (f text : Str) (maxTok : Nat) (_hmax : 1 ≤ maxTok)
    (hne : rustLines text ≠ [])
    (hgood : ∀ l ∈ rustLines text, l ≠ [] ∧ l.getLast? ≠ some '\r') :
    merge_slices ((split_yaml_content f text maxTok).map toSlice)
      = .ok (joinNl (rustLines text)) ∧
    rustLines (joinNl (rustLines text)) = rustLines text := by
  have hgood' : ∀ l ∈ rustLines text,
      l ≠ [] ∧ l.getLast? ≠ some '\r' ∧ ∀ c ∈ l, c ≠ '\n' := by
    intro l hl
    exact ⟨(hgood l hl).1, (hgood l hl).2, rustLines_no_nl text l hl⟩
  refine ⟨?_, rustLines_joinNl hne hgood'⟩
  rcases split_yaml_spec f text maxTok with ⟨blocks, hsplit, hflat, hprops⟩
  have hbne : blocks ≠ [] := by
    intro hb
    subst hb
    simp at hflat
    exact hne hflat
  rw [hsplit]
  have hpw : List.Pairwise sliceLe ((chunksOf f 1 blocks).map toSlice) := by
    rw [List.pairwise_map]
    exact (chunksOf_pairwise f blocks 1 (fun b hb => (hprops b hb).1)).imp
      (fun hab => Nat.le_of_lt hab)
  have hsort : sortSlices ((chunksOf f 1 blocks).map toSlice)
      = (chunksOf f 1 blocks).map toSlice := sortSlices_eq_self hpw
  have hchain : List.Chain' (fun a b => b.start_line = a.end_line + 1)
      ((chunksOf f 1 blocks).map toSlice) := by
    rw [List.chain'_map]
    exact chunksOf_chain f blocks 1 (fun b hb => (hprops b hb).1)
  have hmapne : (chunksOf f 1 blocks).map toSlice ≠ [] := by
    rcases hbs : (blocks : List (List Str)) with _ | ⟨b, bs⟩
    · exact absurd hbs hbne
    · subst hbs
      simp [chunksOf]
  have hmerge := merge_ok_of_chain ((chunksOf f 1 blocks).map toSlice) hmapne
    (by rw [hsort]; exact hchain)
  rw [hmerge, hsort]
  have hcontents : ((chunksOf f 1 blocks).map toSlice).map
      (fun s => rustLines s.content) = blocks := by
    rw [List.map_map]
    rw [show ((fun s : TranslationSlice => rustLines s.content) ∘ toSlice)
        = (rustLines ∘ FileChunk.content) from rfl]
    rw [← List.map_map, chunksOf_map_content, List.map_map]
    have hid : ∀ b ∈ blocks, (rustLines ∘ joinNl) b = id b := by
      intro b hb
      simp only [Function.comp_apply, id]
      apply rustLines_joinNl (hprops b hb).1
      intro l hl
      have hlin : l ∈ rustLines text := by
        rw [← hflat]
        exact List.mem_flatten.mpr ⟨b, hb, hl⟩
      exact hgood' l hlin
    rw [List.map_congr_left hid, List.map_id]
  rw [hcontents, hflat]

/-- C1 witness: concrete instance with two chunks (budget 1 over two lines). -/
theorem claim_C1_round_trip_witness :
    merge_slices ((split_yaml_content (str "f") (str "a\nbb") 1).map toSlice)
      = .ok (joinNl (rustLines (str "a\nbb"))) ∧
    rustLines (joinNl (rustLines (str "a\nbb"))) = rustLines (str "a\nbb") :=
  claim_C1_round_trip (str "f") (str "a\nbb") 1 (by decide) (by decide) (by decide)

/-- C1 counterexample: for the text `"a\n\n"` (whose line sequence is
`["a", ""]`) and budget 5 the merge of the split returns `"a"`, whose line
sequence `["a"]` lost the trailing empty line, so the unamended universally
quantified round-trip claim is false. -/
theorem claim_C1_counterexample :
    rustLines (str "a\n\n") = [str "a", str ""] ∧
    merge_slices ((split_yaml_content (str "f") (str "a\n\n") 5).map toSlice)
      = .ok (str "a") ∧
    rustLines (str "a") ≠ rustLines (str "a\n\n") := by
  refine ⟨by decide, by decide, by decide⟩

/- ===== C2 ===== -/

/-- C2: the chunk sequence of `split_yaml_content` is ordered by `start_line`,
adjacent chunks satisfy `start_line[i+1] = end_line[i] + 1`, and every chunk
has `start_line ≤ end_line`; and `merge_slices` returns an error (the
`MergeFailed` variant, not a silent repair) whenever the `start_line`-sorted
slices violate that equation at some adjacent pair. -/
theorem claim_C2_contiguity :
    (∀ (f text : Str) (maxTok : Nat),
      List.Chain' (fun a b => b.start_line = a.end_line + 1)
        (split_yaml_content f text maxTok) ∧
      List.Pairwise (fun a b => a.start_line < b.start_line)
        (split_yaml_content f text maxTok) ∧
      ∀ c ∈ split_yaml_content f text maxTok, c.start_line ≤ c.end_line) ∧
    (∀ slices : List TranslationSlice,
      ¬ List.Chain' (fun a b => b.start_line = a.end_line + 1)
          (sortSlices slices) →
      ∃ g p, merge_slices slices = .error (.mergeFailed g p)) := by
  constructor
  · intro f text maxTok
    rcases split_yaml_spec f text maxTok with ⟨blocks, hsplit, _hflat, hprops⟩
    rw [hsplit]
    refine ⟨chunksOf_chain f blocks 1 (fun b hb => (hprops b hb).1),
      chunksOf_pairwise f blocks 1 (fun b hb => (hprops b hb).1), ?_⟩
    intro c hc
    rcases mem_chunksOf f blocks 1 c (fun b hb => (hprops b hb).1) hc
      with ⟨b, hb, _, hlen, _⟩
    have hb1 : 1 ≤ b.length := List.length_pos.mpr (hprops b hb).1
    omega
  · exact merge_error_of_not_chain

/-- C2 witness: a concrete split (two chunks, budget 1) and a concrete
out-of-order, gap-containing slice list that `merge_slices` rejects. -/
theorem claim_C2_contiguity_witness :
    (List.Chain' (fun a b => b.start_line = a.end_line + 1)
        (split_yaml_content (str "f") (str "a\nbb") 1) ∧
      List.Pairwise (fun a b => a.start_line < b.start_line)
        (split_yaml_content (str "f") (str "a\nbb") 1) ∧
      ∀ c ∈ split_yaml_content (str "f") (str "a\nbb") 1,
        c.start_line ≤ c.end_line) ∧
    ∃ g p, merge_slices [⟨str "x", 3, 3⟩, ⟨str "y", 1, 1⟩]
      = .error (.mergeFailed g p) :=
  ⟨(claim_C2_contiguity.1 (str "f") (str "a\nbb") 1),
   claim_C2_contiguity.2 [⟨str "x", 3, 3⟩, ⟨str "y", 1, 1⟩]
     (by
       have h : sortSlices [⟨str "x", 3, 3⟩, ⟨str "y", 1, 1⟩]
           = [⟨str "y", 1, 1⟩, ⟨str "x", 3, 3⟩] := by decide
       rw [h]
       simp [List.chain'_cons])⟩

/- ===== C3 ===== -/

/-- C3 (amended): every chunk spanning more than one line corresponds to a
consecutive block `b` of the input's line sequence whose length matches the
chunk's line range and whose summed per-line token estimates are within the
budget; the estimate of the chunk's joined `content` itself can exceed the
budget slightly (the inserted newlines and the per-line ceilings are not
accounted), which refutes the unamended claim — see the counterexample. -/
theorem claim_C3_token_bound (f text : Str) (maxTok : Nat) (c : FileChunk)
    (hc : c ∈ split_yaml_content f text maxTok)
    (hmulti : c.start_line < c.end_line) :
    ∃ b : List Str, b <:+: rustLines text ∧ c.content = joinNl b ∧
      c.start_line + b.length = c.end_line + 1 ∧ sumTokens b ≤ maxTok := by
  rcases split_yaml_spec f text maxTok with ⟨blocks, hsplit, hflat, hprops⟩
  rw [hsplit] at hc
  rcases mem_chunksOf f blocks 1 c (fun b hb => (hprops b hb).1) hc
    with ⟨b, hb, hcont, hlen, _⟩
  refine ⟨b, ?_, hcont, hlen, ?_⟩
  · rw [← hflat]
    exact List.infix_of_mem_flatten hb
  · exact (hprops b hb).2 (by omega)

/-- C3 witness: with budget 3, the two-line text `"aaaa\nbb"` yields a single
two-line chunk whose per-line estimates sum to 2 ≤ 3. -/
theorem claim_C3_token_bound_witness :
    ⟨str "aaaa\nbb", 1, 2, str "f"⟩ ∈ split_yaml_content (str "f") (str "aaaa\nbb") 3 ∧
    ∃ b : List Str, b <:+: rustLines (str "aaaa\nbb") ∧
      (str "aaaa\nbb") = joinNl b ∧ 1 + b.length = 2 + 1 ∧ sumTokens b ≤ 3 :=
  ⟨by decide,
   claim_C3_token_bound (str "f") (str "aaaa\nbb") 3
     ⟨str "aaaa\nbb", 1, 2, str "f"⟩ (by decide) (by decide)⟩

/-- C3 counterexample: with budget 4 the text of four `"aaaa"` lines is kept
in one four-line chunk (per-line estimates 1+1+1+1 = 4 ≤ 4), but the estimate
of the joined content (19 characters) is 5 > 4, so a multi-line chunk does
exceed `estimate_mixed_tokens(chunk.content) ≤ max_chunk_tokens`. -/
theorem claim_C3_counterexample :
    split_yaml_content (str "f") (str "aaaa\naaaa\naaaa\naaaa") 4
      = [⟨str "aaaa\naaaa\naaaa\naaaa", 1, 4, str "f"⟩] ∧
    (rustLines (str "aaaa\naaaa\naaaa\naaaa")).length = 4 ∧
    estimate_mixed_tokens (str "aaaa\naaaa\naaaa\naaaa") = 5 := by
  refine ⟨by decide, by decide, by decide⟩

/- ===== C5 ===== -/

/-- C5: `merge_slices` fails with the empty-input error (`InconsistentSlices`)
exactly on the empty list; fails with the non-contiguity error (`MergeFailed`)
exactly when an adjacent pair of the `start_line`-sorted slices violates
`start_line = prev.end_line + 1`; and otherwise succeeds with the slices'
lines newline-joined in sorted order — with no check that a slice's content
has as many lines as its declared range. -/
theorem claim_C5_merge_contract (slices : List TranslationSlice) :
    (merge_slices slices = .error .inconsistentSlices ↔ slices = []) ∧
    ((∃ g p, merge_slices slices = .error (.mergeFailed g p)) ↔
      ¬ List.Chain' (fun a b => b.start_line = a.end_line + 1)
          (sortSlices slices)) ∧
    (slices ≠ [] →
      List.Chain' (fun a b => b.start_line = a.end_line + 1)
        (sortSlices slices) →
      merge_slices slices = .ok
        (joinNl ((sortSlices slices).map fun s => rustLines s.content).flatten)) := by
  refine ⟨?_, ?_, fun hne hch => merge_ok_of_chain slices hne hch⟩
  · constructor
    · intro he
      by_contra hne
      by_cases hch : List.Chain' (fun a b => b.start_line = a.end_line + 1)
          (sortSlices slices)
      · rw [merge_ok_of_chain slices hne hch] at he
        exact Except.noConfusion he
      · rcases merge_error_of_not_chain slices hch with ⟨g, p, hgp⟩
        rw [hgp] at he
        injection he with h2
        exact PostprocessError.noConfusion h2
    · intro he
      subst he
      rfl
  · constructor
    · rintro ⟨g, p, hgp⟩ hch
      have hne : slices ≠ [] := by
        intro he
        subst he
        injection hgp with h2
        exact PostprocessError.noConfusion h2
      rw [merge_ok_of_chain slices hne hch] at hgp
      exact Except.noConfusion hgp
    · exact merge_error_of_not_chain slices

/-- C5 witness: a contiguous slice pair given out of order, whose first slice
declares a two-line range but contains three lines, still merges successfully
(content line counts are not checked), sorted by `start_line`. -/
theorem claim_C5_merge_contract_witness :
    merge_slices [⟨str "c", 3, 3⟩, ⟨str "a\nx\ny", 1, 2⟩]
      = .ok (joinNl ((sortSlices [⟨str "c", 3, 3⟩, ⟨str "a\nx\ny", 1, 2⟩]).map
          fun s => rustLines s.content).flatten) :=
  (claim_C5_merge_contract [⟨str "c", 3, 3⟩, ⟨str "a\nx\ny", 1, 2⟩]).2.2
    (by decide)
    (by
      have h : sortSlices [⟨str "c", 3, 3⟩, ⟨str "a\nx\ny", 1, 2⟩]
          = [⟨str "a\nx\ny", 1, 2⟩, ⟨str "c", 3, 3⟩] := by decide
      rw [h]
      simp [List.chain'_cons])

/- ===== C6 ===== -/

/-- C6 (amended): `validate` passes exactly when all three marker families
agree between original and translated text; on failure it reports exactly ONE
issue — the first mismatching family in the fixed order icon, variable,
color — naming that family and both observed sequences.  (The unamended
claim, that a mismatch in ANY family produces an issue entry for that family,
fails when an earlier family also mismatches: the check returns at the first
mismatch; see the counterexample.) -/
theorem claim_C6_validator_contract (o t : Str) :
    (validate o t = .ok () ↔
      (iconMarkers o = iconMarkers t ∧ variableMarkers o = variableMarkers t ∧
        colorMarkers o = colorMarkers t)) ∧
    (iconMarkers o ≠ iconMarkers t →
      validate o t = .error (.iconMismatch (iconMarkers o) (iconMarkers t))) ∧
    (iconMarkers o = iconMarkers t → variableMarkers o ≠ variableMarkers t →
      validate o t
        = .error (.variableMismatch (variableMarkers o) (variableMarkers t))) ∧
    (iconMarkers o = iconMarkers t → variableMarkers o = variableMarkers t →
      colorMarkers o ≠ colorMarkers t →
      validate o t = .error (.colorMismatch (colorMarkers o) (colorMarkers t))) := by
  by_cases h1 : iconMarkers o = iconMarkers t <;>
    by_cases h2 : variableMarkers o = variableMarkers t <;>
      by_cases h3 : colorMarkers o = colorMarkers t <;>
        simp [validate, h1, h2, h3]

/-- C6 witness: icons agree, variables differ — the single reported issue is
the variable mismatch with both observed sequences. -/
theorem claim_C6_validator_contract_witness :
    validate (str "£i£$a$") (str "£i£$b$")
      = .error (.variableMismatch [str "$a$"] [str "$b$"]) :=
  (claim_C6_validator_contract (str "£i£$a$") (str "£i£$b$")).2.2.1
    (by decide) (by decide)

/-- C6 counterexample: both the icon and the variable family mismatch, yet
`validate` reports only the icon issue — no issue entry names the variable
family, refuting "a mismatch in any family produces one issue entry naming
that family". -/
theorem claim_C6_counterexample :
    validate (str "£a£$b$") (str "£c£$d$")
      = .error (.iconMismatch [str "£a£"] [str "£c£"]) ∧
    variableMarkers (str "£a£$b$") ≠ variableMarkers (str "£c£$d$") :=
  ⟨by decide, by decide⟩

/- ===== C10 ===== -/

theorem scanMarkers_shape (d : Char) (s : Str) :
    ∀ st : Option Str, (∀ acc, st = some acc → ∀ c ∈ acc, c ≠ d) →
      ∀ span ∈ scanMarkers d s st,
        ∃ m, m ≠ [] ∧ (∀ c ∈ m, c ≠ d) ∧ span = d :: (m ++ [d]) := by
  induction s with
  | nil => intro st _ span h; simp [scanMarkers] at h
  | cons c rest ih =>
    intro st hst span hspan
    rcases st with _ | acc
    · simp only [scanMarkers] at hspan
      by_cases hc : c = d
      · rw [if_pos hc] at hspan
        refine ih (some []) ?_ span hspan
        intro a ha
        injection ha with ha
        subst ha
        simp
      · rw [if_neg hc] at hspan
        exact ih none (by intro a ha; exact Option.noConfusion ha) span hspan
    · have hacc : ∀ x ∈ acc, x ≠ d := hst acc rfl
      simp only [scanMarkers] at hspan
      by_cases hc : c = d
      · rw [if_pos hc] at hspan
        by_cases hae : acc.isEmpty
        · rw [if_pos hae] at hspan
          refine ih (some []) ?_ span hspan
          intro a ha
          injection ha with ha
          subst ha
          simp
        · rw [if_neg hae] at hspan
          rcases List.mem_cons.mp hspan with hsp | hsp
          · refine ⟨acc.reverse, ?_, ?_, hsp⟩
            · intro habs
              rw [List.reverse_eq_nil_iff] at habs
              rw [habs] at hae
              simp at hae
            · intro x hx
              exact hacc x (List.mem_reverse.mp hx)
          · exact ih none (by intro a ha; exact Option.noConfusion ha) span hsp
      · rw [if_neg hc] at hspan
        refine ih (some (c :: acc)) ?_ span hspan
        intro a ha
        injection ha with ha
        subst ha
        intro x hx
        rcases List.mem_cons.mp hx with hx | hx
        · subst hx; exact hc
        · exact hacc x hx

/-- C10 (amended): every span any marker family extracts is a delimiter pair
with a non-empty delimiter-free interior, and the degenerate strings `"DD"`
and `"D"` contribute no span, so an original/translated pair whose degenerate
fragments stand apart from every other delimiter occurrence validates clean.
(The unamended consequence — no issue for ANY pair differing only by such
fragments — fails when an empty pair is spliced into an existing span: it
splits that span; see the counterexample.) -/
theorem claim_C10_degenerate_markers :
    (∀ (d : Char) (s : Str), ∀ span ∈ extractMarkers d s,
      ∃ m, m ≠ [] ∧ (∀ c ∈ m, c ≠ d) ∧ span = d :: (m ++ [d])) ∧
    (∀ d : Char, extractMarkers d [d, d] = [] ∧ extractMarkers d [d] = []) ∧
    validate (str "a££b$§x") (str "abx") = .ok () := by
  refine ⟨?_, ?_, by decide⟩
  · intro d s span hspan
    exact scanMarkers_shape d s none
      (by intro a ha; exact Option.noConfusion ha) span hspan
  · intro d
    constructor
    · show scanMarkers d [d, d] none = []
      simp [scanMarkers]
    · show scanMarkers d [d] none = []
      simp [scanMarkers]

/-- C10 witness: the span extracted from `"£a£"` has the non-empty
delimiter-free interior `"a"`. -/
theorem claim_C10_degenerate_markers_witness :
    ∃ m, m ≠ [] ∧ (∀ c ∈ m, c ≠ '£') ∧ str "£a£" = '£' :: (m ++ ['£']) :=
  claim_C10_degenerate_markers.1 '£' (str "£a£") (str "£a£") (by decide)

/-- C10 counterexample: inserting the empty pair `"££"` inside an existing
icon span splits it, so a pair differing only by that degenerate fragment IS
reported — the universal "no issue for pairs differing only by such
fragments" reading is false. -/
theorem claim_C10_counterexample :
    str "£a££b£" = str "£a" ++ str "££" ++ str "b£" ∧
    str "£ab£" = str "£a" ++ str "b£" ∧
    validate (str "£ab£") (str "£a££b£")
      = .error (.iconMismatch [str "£ab£"] [str "£a£", str "£b£"]) :=
  ⟨by decide, by decide, by decide⟩

/- ===== C9 ===== -/

theorem log2F_eq (fuel : Nat) : ∀ n : Nat, n ≤ fuel → log2F fuel n = Nat.log 2 n := by
  induction fuel with
  | zero =>
    intro n hn
    rw [Nat.le_zero.mp hn, Nat.log_zero_right]
    rfl
  | succ fuel ih =>
    intro n hn
    by_cases h2 : n < 2
    · have hn2 : Nat.log 2 n = 0 := by
        rcases (by omega : n = 0 ∨ n = 1) with h | h
        · rw [h]; exact Nat.log_zero_right 2
        · rw [h]; exact Nat.log_one_right 2
      simp [log2F, h2, hn2]
    · have hrec := ih (n / 2) (by omega)
      have hlog : Nat.log 2 n = Nat.log 2 (n / 2) + 1 := by
        refine Nat.log_eq_of_pow_le_of_lt_pow ?_ ?_
        · have h1 : 2 ^ Nat.log 2 (n / 2) ≤ n / 2 :=
            Nat.pow_log_le_self 2 (by omega)
          have h1b : 2 ^ (Nat.log 2 (n / 2) + 1) = 2 * 2 ^ Nat.log 2 (n / 2) := by ring
          omega
        · have h2b : n / 2 < 2 ^ (Nat.log 2 (n / 2) + 1) :=
            Nat.lt_pow_succ_log_self (by norm_num) (n / 2)
          have h2c : 2 ^ (Nat.log 2 (n / 2) + 1 + 1) = 2 * 2 ^ (Nat.log 2 (n / 2) + 1) := by
            ring
          omega
      simp only [log2F, if_neg h2, hrec, hlog]

theorem natLog2_eq (n : Nat) : natLog2 n = Nat.log 2 n := log2F_eq n n le_rfl

theorem roundF32N_of_lt {q : Nat} (h : q < 2 ^ 24) : roundF32N q = q := by
  unfold roundF32N
  rw [if_pos h]

theorem roundF32N_of_dvd {q : Nat} (h : 2 ^ (natLog2 q - 23) ∣ q) :
    roundF32N q = q := by
  unfold roundF32N
  by_cases hlt : q < 2 ^ 24
  · rw [if_pos hlt]
  · rw [if_neg hlt]
    have h24 : (2 : Nat) ^ 24 = 16777216 := by norm_num
    have hq0 : q ≠ 0 := by omega
    have hL : 24 ≤ natLog2 q := by
      rw [natLog2_eq]
      exact (Nat.pow_le_iff_le_log (by norm_num) hq0).mp (Nat.le_of_not_lt hlt)
    have hr : q % 2 ^ (natLog2 q - 23) = 0 := Nat.mod_eq_zero_of_dvd h
    have hg2 : 2 ≤ 2 ^ (natLog2 q - 23) := by
      calc (2 : Nat) = 2 ^ 1 := by norm_num
        _ ≤ 2 ^ (natLog2 q - 23) := Nat.pow_le_pow_right (by norm_num) (by omega)
    rw [hr, if_neg (Nat.not_lt_zero _), if_pos (Nat.div_pos hg2 (by norm_num))]
    exact Nat.div_mul_cancel h

theorem roundF32N_four_mul {n : Nat} (hn : n < 2 ^ 24) :
    roundF32N (4 * n) = 4 * n := by
  apply roundF32N_of_dvd
  rcases Nat.eq_zero_or_pos n with h0 | hpos
  · subst h0
    simp
  · have hL : Nat.log 2 (4 * n) < 26 := by
      apply Nat.log_lt_of_lt_pow (by omega)
      have h26 : (2 : Nat) ^ 26 = 4 * 2 ^ 24 := by norm_num
      rw [h26]
      exact (mul_lt_mul_left (by norm_num)).mpr hn
    have hd : natLog2 (4 * n) - 23 ≤ 2 := by
      rw [natLog2_eq]
      omega
    exact dvd_trans (dvd_trans (pow_dvd_pow 2 hd) (by norm_num)) (dvd_mul_right 4 n)

/-- Below `2 ^ 24` characters every `f32` rounding step of
`estimate_english_tokens` is the identity and the result is the exact integer
ceiling `(len + 3) / 4`. -/
theorem estimate_english_small {text : Str} (h : text.length < 2 ^ 24) :
    estimate_english_tokens text = (text.length + 3) / 4 := by
  unfold estimate_english_tokens
  rw [roundF32N_four_mul h, Nat.mul_div_cancel_left _ (by norm_num),
    roundF32N_of_lt h]

/-- While `6 * cjk + other < 2 ^ 24` every `f32` rounding step of
`estimate_chinese_tokens` is the identity and the result is the exact integer
ceiling `(6 * cjk + other + 3) / 4` of `1.5 * cjk + 0.25 * other`. -/
theorem estimate_chinese_small {text : Str}
    (h : 6 * cjkCount text + otherCount text < 2 ^ 24) :
    estimate_chinese_tokens text
      = (6 * cjkCount text + otherCount text + 3) / 4 := by
  have h24 : (2 : Nat) ^ 24 = 16777216 := by norm_num
  unfold estimate_chinese_tokens
  rw [roundF32N_four_mul (by omega), roundF32N_four_mul (by omega),
    Nat.mul_div_cancel_left _ (by norm_num)]
  have h6 : 3 * (4 * cjkCount text) / 2 = 6 * cjkCount text := by omega
  rw [h6, @roundF32N_of_lt (6 * cjkCount text) (by omega),
    @roundF32N_of_lt (otherCount text) (by omega),
    roundF32N_of_lt (by omega)]

theorem ceil_nat_div4 (n : Nat) : ⌈(n : ℚ) / 4⌉ = ((n + 3) / 4 : Nat) := by
  have h3 := Nat.div_add_mod (n + 3) 4
  have h4m : (n + 3) % 4 < 4 := Nat.mod_lt _ (by norm_num)
  set k := (n + 3) / 4 with hk
  have h4 : (0 : ℚ) < 4 := by norm_num
  rw [Int.ceil_eq_iff]
  constructor
  · rw [lt_div_iff₀ h4]
    have hc : ((k : ℚ)) * 4 ≤ (n : ℚ) + 3 := by
      exact_mod_cast (by omega : k * 4 ≤ n + 3)
    push_cast
    linarith
  · rw [div_le_iff₀ h4]
    have hc : (n : ℚ) ≤ (k : ℚ) * 4 := by
      exact_mod_cast (by omega : n ≤ k * 4)
    push_cast
    linarith

/-- C9 (amended): `estimate_mixed_tokens` is a pure function on the character
sequence and a non-negative integer; AS LONG AS THE WEIGHTED SIZE IS BELOW
`2 ^ 24` its `f32` arithmetic is exact, so for a string containing a CJK
character (with `6 * cjk + other < 2 ^ 24`) it equals
`ceil(1.5*cjk + 0.25*other)`, and for a CJK-free string of fewer than `2 ^ 24`
characters it equals `ceil(len/4)`.  Beyond that size the `f32` rounding
makes the result drift below the exact ceiling — see the counterexample at
`2 ^ 24 + 1` characters — so the unamended, unbounded claim is false. -/
theorem claim_C9_token_estimator (t : Str) :
    (t.any is_cjk_character = true →
      6 * cjkCount t + otherCount t < 2 ^ 24 →
      (estimate_mixed_tokens t : ℤ)
        = ⌈(1.5 : ℚ) * (cjkCount t) + (0.25 : ℚ) * (otherCount t)⌉) ∧
    (t.any is_cjk_character = false → t.length < 2 ^ 24 →
      (estimate_mixed_tokens t : ℤ) = ⌈(t.length : ℚ) / 4⌉) ∧
    0 ≤ estimate_mixed_tokens t := by
  refine ⟨?_, ?_, Nat.zero_le _⟩
  · intro h hsz
    have he : (1.5 : ℚ) * (cjkCount t) + (0.25 : ℚ) * (otherCount t)
        = ((6 * cjkCount t + otherCount t : ℕ) : ℚ) / 4 := by
      push_cast
      ring_nf
    rw [he, ceil_nat_div4]
    simp [estimate_mixed_tokens, h, estimate_chinese_small hsz]
  · intro h hsz
    rw [ceil_nat_div4]
    simp [estimate_mixed_tokens, h, estimate_english_small hsz]

/-- C9 witness: the two branches at concrete strings — `"汉a"` (one CJK, one
other character) and `"aaaaa"` (no CJK), both far below the size bound. -/
theorem claim_C9_token_estimator_witness :
    ((str "汉a").any is_cjk_character = true ∧
      6 * cjkCount (str "汉a") + otherCount (str "汉a") < 2 ^ 24 ∧
      (estimate_mixed_tokens (str "汉a") : ℤ)
        = ⌈(1.5 : ℚ) * (cjkCount (str "汉a")) + (0.25 : ℚ) * (otherCount (str "汉a"))⌉) ∧
    (estimate_mixed_tokens (str "aaaaa") : ℤ) = ⌈((str "aaaaa").length : ℚ) / 4⌉ :=
  ⟨⟨by decide, by decide,
    (claim_C9_token_estimator (str "汉a")).1 (by decide) (by decide)⟩,
   (claim_C9_token_estimator (str "aaaaa")).2.1 (by decide) (by decide)⟩

/-- C9 counterexample: for the CJK-free text of `2 ^ 24 + 1` characters the
`f32` cast already rounds `16777217` (a tie between the representable
neighbours `16777216` and `16777218`, broken towards the even significand)
down to `16777216`, so the program returns `4194304` while the exact ceiling
`⌈(2 ^ 24 + 1) / 4⌉` is `4194305`: without a size bound the claimed equality
to the exact rational ceiling is false of the program. -/
theorem claim_C9_counterexample :
    estimate_mixed_tokens (List.replicate (2 ^ 24 + 1) 'a') = 4194304 ∧
    (⌈(((List.replicate (2 ^ 24 + 1) 'a' : Str).length : ℚ)) / 4⌉ : ℤ) = 4194305 := by
  have hlen : (List.replicate (2 ^ 24 + 1) 'a' : Str).length = 2 ^ 24 + 1 :=
    List.length_replicate _ _
  constructor
  · have hany : (List.replicate (2 ^ 24 + 1) 'a' : Str).any is_cjk_character = false := by
      rw [List.any_eq_false]
      intro x hx
      rw [List.eq_of_mem_replicate hx]
      decide
    rw [estimate_mixed_tokens, hany, if_neg Bool.false_ne_true,
      estimate_english_tokens, hlen]
    have hlog1 : natLog2 67108868 = 26 := by
      rw [natLog2_eq]
      exact Nat.log_eq_of_pow_le_of_lt_pow (by norm_num) (by norm_num)
    have e2 : roundF32N 67108868 = 67108864 := by
      unfold roundF32N
      rw [hlog1]
      decide
    have hlog2 : natLog2 16777216 = 24 := by
      rw [natLog2_eq]
      exact Nat.log_eq_of_pow_le_of_lt_pow (by norm_num) (by norm_num)
    have e3 : roundF32N 16777216 = 16777216 := by
      unfold roundF32N
      rw [hlog2]
      decide
    rw [show (4 * (2 ^ 24 + 1) : ℕ) = 67108868 from by norm_num, e2,
      show (67108864 / 4 : ℕ) = 16777216 from by norm_num, e3]
  · rw [hlen, ceil_nat_div4]
    norm_num

/- ===== C7 ===== -/

/-- C7 (amended): for any Unicode lowercasing function standing for Rust
`str::to_lowercase`, `find_terms_in_text` returns an entry's source-language
term exactly when the term, WITH ITS ORIGINAL CASE, occurs as a substring of
the lower-cased input text: matching is insensitive to the input text's case
but sensitive to the glossary term's case (only the text is lower-cased).
The unamended claim — insensitive to the case of either side — fails for any
term containing an upper-case letter; see the counterexample. -/
theorem claim_C7_find_terms (rustToLower : Str → Str)
    (entries : List (Str × GlossaryItem))
    (text source_lang term : Str) :
    term ∈ find_terms_in_text rustToLower entries text source_lang ↔
      ∃ kv ∈ entries, GlossaryItem.get kv.2 source_lang = some term ∧
        term <:+: rustToLower text := by
  simp only [find_terms_in_text]
  rw [List.mem_filterMap]
  constructor
  · rintro ⟨kv, hkv, hmap⟩
    refine ⟨kv, hkv, ?_⟩
    rcases hget : GlossaryItem.get kv.2 source_lang with _ | tm
    · simp [hget] at hmap
    · simp only [hget] at hmap
      by_cases hinf : tm <:+: rustToLower text
      · rw [if_pos hinf] at hmap
        injection hmap with hmap
        subst hmap
        exact ⟨rfl, hinf⟩
      · rw [if_neg hinf] at hmap
        exact Option.noConfusion hmap
  · rintro ⟨kv, hkv, hget, hinf⟩
    exact ⟨kv, hkv, by simp [hget, hinf]⟩

/-- C7 counterexample: the glossary term `"Energy"` (entry key `"energy"`)
occurs case-insensitively in the text `"Energy"` (their lower-casings are
equal), yet `find_terms_in_text` returns nothing, because the term is
compared with its original upper-case `E` against the lower-cased text.  All
strings involved are ASCII, where `asciiToLower` is exactly Rust
`str::to_lowercase`. -/
theorem claim_C7_counterexample :
    find_terms_in_text asciiToLower
      [(str "energy",
        ⟨some (str "Energy"), none, none, none, none, none, none, none, none, none⟩)]
      (str "Energy") (str "english") = [] ∧
    asciiToLower (str "Energy") <:+: asciiToLower (str "Energy") :=
  ⟨by decide, by decide⟩

/- ===== C8 ===== -/

/-- C8 (amended): loading a glossary JSON object keeps exactly the entries
whose value deserializes: an object entry is accepted iff at least one of the
ten numeric language keys is PRESENT — a present key whose value is the empty
string counts, so an entry with no non-empty language value can still be
kept — and rejected entries (no recognized key, or malformed value) are
skipped while the remaining entries load normally. -/
theorem claim_C8_glossary_load (obj : List (Str × EntryJson)) :
    (∀ (k : Str) (item : GlossaryItem),
      (k, item) ∈ from_json_object obj ↔
        ∃ e, (k, e) ∈ obj ∧ glossary_item_deserialize e = some item) ∧
    (∀ fields : List (Str × Str),
      (glossary_item_deserialize (.obj fields)).isSome ↔
        ∃ kk ∈ langKeys, (lookupField fields kk).isSome) ∧
    glossary_item_deserialize .malformed = none := by
  refine ⟨?_, ?_, rfl⟩
  · intro k item
    constructor
    · intro h
      rw [from_json_object, List.mem_filterMap] at h
      rcases h with ⟨kv, hkv, hf⟩
      rcases hmap : glossary_item_deserialize kv.2 with _ | it
      · rw [hmap] at hf
        exact Option.noConfusion hf
      · rw [hmap] at hf
        simp only [Option.map_some'] at hf
        injection hf with hf
        have hk1 : kv.1 = k := congrArg Prod.fst hf
        have hit : it = item := congrArg Prod.snd hf
        refine ⟨kv.2, ?_, by rw [hmap, hit]⟩
        rw [← hk1]
        exact hkv
    · rintro ⟨e, he, hd⟩
      rw [from_json_object, List.mem_filterMap]
      exact ⟨(k, e), he, by simp [hd]⟩
  · intro fields
    constructor
    · intro h
      simp only [glossary_item_deserialize] at h
      split at h
      · next hcond =>
        simp only [Bool.or_eq_true] at hcond
        simp only [langKeys, List.exists_mem_cons_iff, List.not_mem_nil]
        tauto
      · next => simp at h
    · intro h
      simp only [langKeys, List.exists_mem_cons_iff, List.not_mem_nil] at h
      simp only [glossary_item_deserialize]
      split
      · simp
      · next hcond =>
        simp only [Bool.or_eq_true] at hcond
        exfalso
        tauto

/-- C8 counterexample: the entry `{"t": {"1": ""}}` has no NON-EMPTY language
value, yet it is kept (with `english = Some ""`): the load check tests key
presence, not non-emptiness, refuting the claim that such an entry is
rejected and never appears in the resulting glossary. -/
theorem claim_C8_counterexample :
    from_json_object [(str "t", .obj [(str "1", str "")])]
      = [(str "t",
          ⟨some [], none, none, none, none, none, none, none, none, none⟩)] ∧
    (∀ v : Str,
      (⟨some [], none, none, none, none, none, none, none, none, none⟩
          : GlossaryItem).english = some v → v = []) :=
  ⟨by decide, fun v hv => by injection hv with hv; exact hv.symm⟩

/- ===== lemmas: translate_batch ===== -/

theorem translateAll_fst (backend : FileChunk → Except Str Str)
    (chunks : List FileChunk) :
    (translateAll backend chunks).1 = chunks.map (translate_chunk backend) := by
  induction chunks with
  | nil => rfl
  | cons c cs ih => simp only [translateAll, List.map_cons, ih]

theorem translateAll_snd (backend : FileChunk → Except Str Str)
    (chunks : List FileChunk) :
    (translateAll backend chunks).2 = chunks.length := by
  induction chunks with
  | nil => rfl
  | cons c cs ih => simp only [translateAll, List.length_cons, ih]

theorem processResults_spec (backend : FileChunk → Except Str Str)
    (chunks : List FileChunk) :
    processResults (chunks.map (translate_chunk backend))
      = (chunks.filterMap (fun c => (translate_chunk backend c).toOption),
         joinSpTrail (failMsgs backend chunks),
         !(failMsgs backend chunks).isEmpty) := by
  induction chunks with
  | nil => rfl
  | cons c cs ih =>
    rcases hb : backend c with e | t
    · have hfail : failMsgs backend (c :: cs) = e :: failMsgs backend cs := by
        simp [failMsgs, hb]
      have htc : translate_chunk backend c = .error e := by
        simp [translate_chunk, hb]
      simp only [List.map_cons, htc, processResults, ih, hfail, joinSpTrail,
        List.filterMap_cons, Except.toOption, List.flatten_cons, List.isEmpty_cons]
      simp
    · have hfail : failMsgs backend (c :: cs) = failMsgs backend cs := by
        simp [failMsgs, hb]
      have htc : translate_chunk backend c
          = .ok ⟨t, c.start_line, c.end_line⟩ := by
        simp [translate_chunk, hb]
      simp only [List.map_cons, htc, processResults, ih, hfail,
        List.filterMap_cons, Except.toOption]

theorem translate_batch_eq (backend : FileChunk → Except Str Str)
    (chunks : List FileChunk) :
    translate_batch backend chunks =
      if (failMsgs backend chunks).isEmpty
      then .ok (chunks.filterMap (fun c => (translate_chunk backend c).toOption))
      else .error (rustTrim (joinSpTrail (failMsgs backend chunks))) := by
  simp only [translate_batch]
  rw [translateAll_fst, processResults_spec]
  rcases hfe : (failMsgs backend chunks).isEmpty with _ | _
  · simp [hfe]
  · simp [hfe]

theorem filterMap_toOption_of_no_fail (backend : FileChunk → Except Str Str)
    (chunks : List FileChunk) (h : failMsgs backend chunks = []) :
    chunks.filterMap (fun c => (translate_chunk backend c).toOption)
      = chunks.map fun c => ⟨okText (backend c), c.start_line, c.end_line⟩ := by
  induction chunks with
  | nil => rfl
  | cons c cs ih =>
    rcases hb : backend c with e | t
    · exfalso
      have : failMsgs backend (c :: cs) = e :: failMsgs backend cs := by
        simp [failMsgs, hb]
      rw [this] at h
      exact List.noConfusion h
    · have hcs : failMsgs backend cs = [] := by
        have : failMsgs backend (c :: cs) = failMsgs backend cs := by
          simp [failMsgs, hb]
        rw [← this]
        exact h
      have hhead : (translate_chunk backend c).toOption
          = some ⟨t, c.start_line, c.end_line⟩ := by
        simp [translate_chunk, hb, Except.toOption]
      rw [List.filterMap_cons, hhead, List.map_cons, ih hcs]
      have hok : okText (backend c) = t := by
        simp [okText, hb]
      rw [hok]

theorem wsClean_spec {m : Str} (h : wsClean m = true) :
    m ≠ [] ∧ (∀ a, m.head? = some a → isWS a = false) ∧
      (∀ b, m.getLast? = some b → isWS b = false) := by
  rcases hm : (m : Str) with _ | ⟨c, rest⟩
  · subst hm
    simp [wsClean] at h
  · subst hm
    simp only [wsClean, List.isEmpty_cons, Bool.not_false, Bool.true_and,
      Bool.and_eq_true, Bool.not_eq_eq_eq_not, Bool.not_true,
      List.headD_cons] at h
    refine ⟨by simp, ?_, ?_⟩
    · intro a ha
      rw [List.head?_cons] at ha
      injection ha with ha
      rw [← ha]
      exact h.1
    · intro b hb
      have hgd : (c :: rest).getLastD ' ' = b := by
        rw [List.getLastD_eq_getLast?, hb]
        rfl
      rw [← hgd]
      exact h.2

theorem joinSpTrail_eq_joinSp {ms : List Str} (hne : ms ≠ []) :
    joinSpTrail ms = joinSp ms ++ [' '] := by
  induction ms with
  | nil => exact absurd rfl hne
  | cons m tl ih =>
    rcases htl : (tl : List Str) with _ | ⟨m2, tl2⟩
    · subst htl
      simp [joinSpTrail, joinSp]
    · rw [← htl]
      have hjoin : joinSp (m :: tl) = m ++ ' ' :: joinSp tl := by
        rw [htl]; rfl
      have ih2 := ih (by rw [htl]; simp)
      simp only [joinSpTrail, List.map_cons, List.flatten_cons] at ih2 ⊢
      rw [ih2, hjoin]
      simp

theorem joinSp_ne_nil {ms : List Str} (hne : ms ≠ [])
    (hnem : ∀ m ∈ ms, m ≠ []) : joinSp ms ≠ [] := by
  induction ms with
  | nil => exact absurd rfl hne
  | cons m tl _ =>
    rcases htl : (tl : List Str) with _ | ⟨m2, tl2⟩
    · subst htl
      exact hnem m (List.mem_cons_self m [])
    · subst htl
      show m ++ ' ' :: joinSp (m2 :: tl2) ≠ []
      simp

theorem getLast?_joinSp_mem {ms : List Str} (hne : ms ≠ [])
    (hnem : ∀ m ∈ ms, m ≠ []) :
    ∃ m ∈ ms, (joinSp ms).getLast? = m.getLast? := by
  induction ms with
  | nil => exact absurd rfl hne
  | cons m tl ih =>
    rcases htl : (tl : List Str) with _ | ⟨m2, tl2⟩
    · subst htl
      exact ⟨m, List.mem_cons_self m [], rfl⟩
    · rw [← htl]
      have hjoin : joinSp (m :: tl) = m ++ ' ' :: joinSp tl := by
        rw [htl]; rfl
      rcases ih (by rw [htl]; simp)
        (fun x hx => hnem x (List.mem_cons_of_mem m hx)) with ⟨mm, hmm, hlast⟩
      refine ⟨mm, List.mem_cons_of_mem m hmm, ?_⟩
      rw [hjoin, List.getLast?_append]
      have hjne : joinSp tl ≠ [] := by
        apply joinSp_ne_nil (by rw [htl]; simp)
        intro x hx
        exact hnem x (List.mem_cons_of_mem m hx)
      rcases hj : (joinSp tl : Str) with _ | ⟨x, xs⟩
      · exact absurd hj hjne
      · have hv : ∃ v, (x :: xs).getLast? = some v :=
          ⟨(x :: xs).getLast (by simp), List.getLast?_eq_getLast _ (by simp)⟩
        rcases hv with ⟨v, hv⟩
        rw [List.getLast?_cons_cons, hv, ← hlast, hj, hv]
        rfl

theorem joinSp_cons_structure (m : Str) (tl : List Str) :
    ∃ r, joinSp (m :: tl) = m ++ r := by
  rcases tl with _ | ⟨m2, tl2⟩
  · exact ⟨[], by simp [joinSp]⟩
  · exact ⟨' ' :: joinSp (m2 :: tl2), rfl⟩

theorem rustTrimLeft_cons {x : Str} {c : Char} (hcw : isWS c = false) :
    rustTrimLeft (c :: x) = c :: x := by
  simp [rustTrimLeft, List.dropWhile_cons, hcw]

theorem rustTrimRight_append_space {x : Str} {b : Char}
    (hb : x.getLast? = some b) (hbw : isWS b = false) :
    rustTrimRight (x ++ [' ']) = x := by
  unfold rustTrimRight
  rw [List.reverse_append]
  have hsp : isWS ' ' = true := by decide
  rcases hxr : (x.reverse : Str) with _ | ⟨b2, rest⟩
  · have hxe : x = [] := by
      rw [← List.reverse_reverse x, hxr]
      rfl
    subst hxe
    exact absurd hb (by simp)
  · have hb2 : b2 = b := Option.some.inj (by
      have hh := List.head?_reverse x
      rw [hxr, List.head?_cons, hb] at hh
      exact hh)
    show (List.dropWhile isWS (' ' :: b2 :: rest)).reverse = x
    rw [List.dropWhile_cons_of_pos hsp,
      List.dropWhile_cons_of_neg (by simp [hb2, hbw])]
    rw [← hxr, List.reverse_reverse]

theorem mem_infix_joinSp {ms : List Str} {m : Str} (h : m ∈ ms) :
    m <:+: joinSp ms := by
  induction ms with
  | nil => simp at h
  | cons m0 tl ih =>
    rcases List.mem_cons.mp h with hh | hh
    · subst hh
      rcases tl with _ | ⟨m2, tl2⟩
      · exact List.infix_rfl
      · show m <:+: m ++ ' ' :: joinSp (m2 :: tl2)
        exact (List.prefix_append m _).isInfix
    · rcases tl with _ | ⟨m2, tl2⟩
      · simp at hh
      · have hinf := ih hh
        show m <:+: m0 ++ ' ' :: joinSp (m2 :: tl2)
        refine hinf.trans ⟨m0 ++ [' '], [], by simp⟩

theorem rustTrim_joinSpTrail {ms : List Str} (hne : ms ≠ [])
    (h : ∀ m ∈ ms, wsClean m = true) :
    rustTrim (joinSpTrail ms) = joinSp ms := by
  rcases ms with _ | ⟨m0, tl⟩
  · exact absurd rfl hne
  · have hw0 := wsClean_spec (h m0 (List.mem_cons_self m0 tl))
    rcases m0 with _ | ⟨c, m0r⟩
    · exact absurd rfl hw0.1
    · have hcw : isWS c = false := hw0.2.1 c rfl
      rw [joinSpTrail_eq_joinSp (by simp)]
      rcases joinSp_cons_structure (c :: m0r) tl with ⟨r, hr⟩
      have hlastmem := getLast?_joinSp_mem
        (show ((c :: m0r) :: tl : List Str) ≠ [] by simp)
        (fun x hx => (wsClean_spec (h x hx)).1)
      rcases hlastmem with ⟨mm, hmm, hlast⟩
      have hwm := wsClean_spec (h mm hmm)
      rcases hgl : (mm.getLast? : Option Char) with _ | bm
      · exfalso
        rcases List.exists_cons_of_ne_nil hwm.1 with ⟨y, ys, hys⟩
        subst hys
        rw [List.getLast?_eq_getLast _ (by simp)] at hgl
        exact Option.noConfusion hgl
      · have hbw : isWS bm = false := hwm.2.2 bm hgl
        unfold rustTrim
        rw [hr]
        have hleft : rustTrimLeft (((c :: m0r) ++ r) ++ [' '])
            = ((c :: m0r) ++ r) ++ [' '] := by
          show rustTrimLeft (c :: ((m0r ++ r) ++ [' '])) = c :: ((m0r ++ r) ++ [' '])
          exact rustTrimLeft_cons hcw
        rw [show ((c :: m0r) ++ r) ++ [' '] = (c :: m0r) ++ r ++ [' '] by simp] at hleft
        rw [hleft]
        have hglast : ((c :: m0r) ++ r).getLast? = some bm := by
          rw [← hr, hlast, hgl]
        rw [show (c :: m0r) ++ r ++ [' '] = ((c :: m0r) ++ r) ++ [' '] by simp]
        rw [rustTrimRight_append_space hglast hbw]

/- ===== C4 ===== -/

/-- C4 (amended): `translate_batch` performs the backend attempt for every
chunk (the join-all phase invokes the per-chunk translation once per chunk,
so the call count equals the chunk count); when no chunk fails it returns one
slice per chunk in input order, each carrying its chunk's `start_line` and
`end_line`; when some chunks fail it returns the aggregate `AsyncError` whose
message is the trimmed space-joined concatenation of all failure messages in
input order, and — provided no failure message itself starts or ends with
whitespace — that aggregate contains every individual failure message as a
substring.  (The unamended containment claim fails for messages with
whitespace at their edges, which the final `trim` eats; see the
counterexample.) -/
theorem claim_C4_batch_isolation (backend : FileChunk → Except Str Str)
    (chunks : List FileChunk) :
    (translateAll backend chunks).2 = chunks.length ∧
    (failMsgs backend chunks = [] →
      translate_batch backend chunks
        = .ok (chunks.map fun c => ⟨okText (backend c), c.start_line, c.end_line⟩)) ∧
    (failMsgs backend chunks ≠ [] →
      translate_batch backend chunks
        = .error (rustTrim (joinSpTrail (failMsgs backend chunks)))) ∧
    ((∀ m ∈ failMsgs backend chunks, wsClean m = true) →
      ∀ m ∈ failMsgs backend chunks,
        m <:+: rustTrim (joinSpTrail (failMsgs backend chunks))) := by
  refine ⟨translateAll_snd backend chunks, ?_, ?_, ?_⟩
  · intro h
    rw [translate_batch_eq, if_pos (by simp [h])]
    rw [filterMap_toOption_of_no_fail backend chunks h]
  · intro h
    rw [translate_batch_eq, if_neg (by simp [h])]
  · intro hws m hm
    have hne : failMsgs backend chunks ≠ [] := by
      intro he
      rw [he] at hm
      exact List.not_mem_nil m hm
    rw [rustTrim_joinSpTrail hne hws]
    exact mem_infix_joinSp hm

/-- C4 witness: three chunks with the second failing — all three backend
calls happen, the aggregate error is returned, and the failure message is
contained in it. -/
theorem claim_C4_batch_isolation_witness :
    (translateAll
      (fun c => if c.start_line = 2 then .error (str "boom") else .ok (str "T"))
      [⟨str "a", 1, 1, str "f"⟩, ⟨str "b", 2, 2, str "f"⟩,
       ⟨str "c", 3, 3, str "f"⟩]).2
      = ([⟨str "a", 1, 1, str "f"⟩, ⟨str "b", 2, 2, str "f"⟩,
          ⟨str "c", 3, 3, str "f"⟩] : List FileChunk).length ∧
    translate_batch
      (fun c => if c.start_line = 2 then .error (str "boom") else .ok (str "T"))
      [⟨str "a", 1, 1, str "f"⟩, ⟨str "b", 2, 2, str "f"⟩,
       ⟨str "c", 3, 3, str "f"⟩]
      = .error (rustTrim (joinSpTrail (failMsgs
          (fun c => if c.start_line = 2 then .error (str "boom") else .ok (str "T"))
          [⟨str "a", 1, 1, str "f"⟩, ⟨str "b", 2, 2, str "f"⟩,
           ⟨str "c", 3, 3, str "f"⟩]))) ∧
    ∀ m ∈ failMsgs
        (fun c => if c.start_line = 2 then .error (str "boom") else .ok (str "T"))
        [⟨str "a", 1, 1, str "f"⟩, ⟨str "b", 2, 2, str "f"⟩,
         ⟨str "c", 3, 3, str "f"⟩],
      m <:+: rustTrim (joinSpTrail (failMsgs
          (fun c => if c.start_line = 2 then .error (str "boom") else .ok (str "T"))
          [⟨str "a", 1, 1, str "f"⟩, ⟨str "b", 2, 2, str "f"⟩,
           ⟨str "c", 3, 3, str "f"⟩])) :=
  ⟨(claim_C4_batch_isolation _ _).1,
   (claim_C4_batch_isolation _ _).2.2.1 (by decide),
   (claim_C4_batch_isolation _ _).2.2.2 (by decide)⟩

/-- C4 counterexample: a failure message with a trailing space — the
aggregate error is its trim `"x"`, which does not contain the message
`"x "`, refuting the unamended "contains every individual failure's
message". -/
theorem claim_C4_counterexample :
    translate_batch (fun _ => .error (str "x ")) [⟨str "a", 1, 1, str "f"⟩]
      = .error (str "x") ∧
    failMsgs (fun _ => .error (str "x ")) [⟨str "a", 1, 1, str "f"⟩]
      = [str "x "] ∧
    ¬ (str "x ") <:+: (str "x") :=
  ⟨by decide, by decide, by decide⟩

/-- C7 witness: a lower-case glossary term is found in a shouting-case ASCII
text (lowercasing instantiated with the ASCII case mapping, which is Rust
`str::to_lowercase` on this input). -/
theorem claim_C7_find_terms_witness :
    (str "energy") ∈ find_terms_in_text asciiToLower
      [(str "energy",
        ⟨some (str "energy"), none, none, none, none, none, none, none, none, none⟩)]
      (str "More ENERGY now") (str "english") :=
  (claim_C7_find_terms asciiToLower
      [(str "energy",
        ⟨some (str "energy"), none, none, none, none, none, none, none, none, none⟩)]
      (str "More ENERGY now") (str "english") (str "energy")).mpr
    ⟨(str "energy",
      ⟨some (str "energy"), none, none, none, none, none, none, none, none, none⟩),
     by decide, by decide, by decide⟩

/-- C8 witness: one well-formed entry is kept, one keyless entry is skipped,
and loading continues past the skipped entry. -/
theorem claim_C8_glossary_load_witness :
    (str "ok", (⟨some (str "energy"), some (str "能量"), none, none, none,
        none, none, none, none, none⟩ : GlossaryItem)) ∈
      from_json_object
        [(str "bad", .obj [(str "zz", str "v")]),
         (str "ok", .obj [(str "1", str "energy"), (str "2", str "能量")])] :=
  ((claim_C8_glossary_load
      [(str "bad", .obj [(str "zz", str "v")]),
       (str "ok", .obj [(str "1", str "energy"), (str "2", str "能量")])]).1
    (str "ok")
    ⟨some (str "energy"), some (str "能量"), none, none, none,
     none, none, none, none, none⟩).mpr
    ⟨.obj [(str "1", str "energy"), (str "2", str "能量")], by decide, by decide⟩
